import Mathlib

/-!
Verification of the sharded LRU key-value store (S.T.O.R.M backend).

The development shallowly embeds `src/STORM_Backend/src/store.cpp` /
`store.h`.  A `Shard` holds an association list `store` modelling the
`unordered_map<string, Entry>` (unique keys; the `Entry.recencyIt`
iterator bookkeeping is implicit: a key's position in `recencyList` is
the node the iterator points to), a `recencyList : List String`
modelling the `std::list<string>` with the most-recently-used key at
the front, and a `capacity`.  The `Store` holds the shard vector and
the hash function (`std::hash<string>` is implementation defined, so it
is a parameter).  Mutation becomes explicit state passing; the C++
in/out reference parameter `value` of `get` becomes an explicit input
that is returned (possibly updated) alongside the found flag.
-/

/-- Lookup in the association list modelling `shard.store.find(key)`:
the value of the first (with unique keys: the only) entry whose key
matches. -/
def mapFind : List (String × String) → String → Option String
  | [], _ => none
  | (k, v) :: rest, key => if k = key then some v else mapFind rest key

/-- In-place value overwrite, modelling `entry_iterator->second.value = value`:
replace the value of the first entry whose key matches. -/
def mapSet : List (String × String) → String → String → List (String × String)
  | [], _, _ => []
  | (k, v) :: rest, key, value =>
      if k = key then (k, value) :: rest else (k, v) :: mapSet rest key value

/-- Erase modelling `shard.store.erase(key)`: remove the first (only)
entry whose key matches. -/
def mapErase : List (String × String) → String → List (String × String)
  | [], _ => []
  | (k, v) :: rest, key => if k = key then rest else (k, v) :: mapErase rest key

/-- A shard: lookup map, recency list (front = most recently used) and
fixed capacity, as in `struct Shard` of `store.h` (the mutex has no
sequential content). -/
structure Shard where
  store : List (String × String)
  recencyList : List String
  capacity : Nat
  deriving Repr, DecidableEq

/-- A freshly constructed shard of the given capacity, as produced by the
`Store` constructor. -/
def Shard.empty (shard_capacity : Nat) : Shard :=
  { store := [], recencyList := [], capacity := shard_capacity }

/-- `Store::putInShard`.  If the key exists, overwrite its value and splice
its node to the front of the recency list.  Otherwise evict the back
(least-recently-used) key when the shard is full, then push the new key to
the front and emplace its entry.  `recencyList.back()` on an empty list is
undefined behaviour in C++; the embedding makes that case explicit via
`getLast?` (the `none` fallback skips the eviction, it is unreachable under
the shard invariants, see the C9 theorem). -/
def putInShard (shard : Shard) (key value : String) : Shard :=
  match mapFind shard.store key with
  | some _ =>
      { shard with
        store := mapSet shard.store key value
        recencyList := key :: shard.recencyList.erase key }
  | none =>
      let afterEvict :=
        if shard.capacity ≤ shard.store.length then
          match shard.recencyList.getLast? with
          | some lru_key =>
              { shard with
                store := mapErase shard.store lru_key
                recencyList := shard.recencyList.dropLast }
          | none => shard
        else shard
      { afterEvict with
        store := (key, value) :: afterEvict.store
        recencyList := key :: afterEvict.recencyList }

/-- `Store::getFromShard`.  The C++ signature is
`bool getFromShard(Shard&, const string& key, string& value)`; here the
in/out parameter `value` is passed in and the new shard, the final
content of `value` and the return flag come back.  On a miss nothing is
touched; on a hit the key is spliced to the front of the recency list
and its stored value is assigned to `value`. -/
def getFromShard (shard : Shard) (key : String) (value : String) :
    Shard × String × Bool :=
  match mapFind shard.store key with
  | none => (shard, value, false)
  | some storedValue =>
      ({ shard with recencyList := key :: shard.recencyList.erase key },
       storedValue, true)

/-- `Store::delFromShard`: erase the key from both the recency list and the
map if present, reporting whether it was present. -/
def delFromShard (shard : Shard) (key : String) : Shard × Bool :=
  match mapFind shard.store key with
  | none => (shard, false)
  | some _ =>
      ({ shard with
         store := mapErase shard.store key
         recencyList := shard.recencyList.erase key }, true)

/-- The per-shard part of `Store::clear`: drop the map and the recency
list. -/
def clearShard (shard : Shard) : Shard :=
  { shard with store := [], recencyList := [] }

/-- The store: the shard vector plus the hash function used for routing
(`std::hash<string>` is implementation defined, hence a field rather than
a fixed function). -/
structure Store where
  hashFn : String → Nat
  shards : List Shard

/-- The `Store(shard_capacity, total_shards)` constructor: `total_shards`
independent empty shards, each with capacity `shard_capacity`. -/
def Store.create (hashFn : String → Nat) (shard_capacity total_shards : Nat) :
    Store :=
  { hashFn := hashFn
    shards := List.replicate total_shards (Shard.empty shard_capacity) }

/-- `Store::shardIndex`: hash of the key reduced modulo the number of
shards. -/
def Store.shardIndex (s : Store) (key : String) : Nat :=
  s.hashFn key % s.shards.length

/-- `Store::put`: route to the owning shard and delegate to `putInShard`.
(The C++ returns `true` unconditionally; the embedding returns the new
store.) -/
def Store.put (s : Store) (key value : String) : Store :=
  let i := s.shardIndex key
  { s with shards := s.shards.set i (putInShard (s.shards.getD i (Shard.empty 0)) key value) }

/-- `Store::get`: route to the owning shard and delegate to
`getFromShard`; returns the new store, the final content of the `value`
in/out parameter, and the found flag. -/
def Store.get (s : Store) (key : String) (value : String) :
    Store × String × Bool :=
  let i := s.shardIndex key
  let r := getFromShard (s.shards.getD i (Shard.empty 0)) key value
  ({ s with shards := s.shards.set i r.1 }, r.2)

/-- `Store::del`: route to the owning shard and delegate to
`delFromShard`. -/
def Store.del (s : Store) (key : String) : Store × Bool :=
  let i := s.shardIndex key
  let r := delFromShard (s.shards.getD i (Shard.empty 0)) key
  ({ s with shards := s.shards.set i r.1 }, r.2)

/-- `Store::putMany`: group the pairs by destination shard (each batch
keeps the input order, which a filter expresses exactly), then apply each
shard's batch in order with `putInShard`.  Empty batches are skipped in
the C++ only to avoid a lock acquisition; applying an empty batch is the
identity, so the fold is over every index. -/
def Store.putMany (s : Store) (pairs : List (String × String)) : Store :=
  { s with
    shards :=
      (List.range s.shards.length).map fun i =>
        (pairs.filter fun p => s.shardIndex p.1 == i).foldl
          (fun sh p => putInShard sh p.1 p.2)
          (s.shards.getD i (Shard.empty 0)) }

/-- `Store::clear`: clear every shard. -/
def Store.clear (s : Store) : Store :=
  { s with shards := s.shards.map clearShard }

/-- Modelled from the spec (the "one at a time" side of the batch
equivalence property): apply the pairs in order through the single-key
`Store.put` path. -/
def putList (s : Store) (pairs : List (String × String)) : Store :=
  pairs.foldl (fun st p => Store.put st p.1 p.2) s

/-- A single-shard operation, for quantifying over arbitrary operation
sequences (the `get` case passes an arbitrary initial content of the
in/out `value` parameter). -/
inductive ShardOp where
  | putOp (key value : String)
  | getOp (key value : String)
  | delOp (key : String)
  | clearOp
  deriving Repr, DecidableEq

/-- Apply one operation to a shard. -/
def applyOp (shard : Shard) : ShardOp → Shard
  | .putOp k v => putInShard shard k v
  | .getOp k v => (getFromShard shard k v).1
  | .delOp k => (delFromShard shard k).1
  | .clearOp => clearShard shard

/-- Apply a sequence of operations to a shard, oldest first. -/
def runOps (shard : Shard) : List ShardOp → Shard
  | [] => shard
  | op :: rest => runOps (applyOp shard op) rest

/-- The shard consistency invariant: the keys of the map are exactly the
recency list up to order (hence `|index| = |recency|`), and the recency
list has no duplicates. -/
def ShardWF (shard : Shard) : Prop :=
  List.Perm (shard.store.map Prod.fst) shard.recencyList ∧
    shard.recencyList.Nodup

instance : Inhabited Shard := ⟨Shard.empty 0⟩

/-- Apply a sequence of `putInShard` calls to a shard, oldest first (the
special case of an operation sequence consisting only of puts, and also
the per-shard batch application loop of `Store::putMany`). -/
def insertAll (shard : Shard) (pairs : List (String × String)) : Shard :=
  pairs.foldl (fun sh p => putInShard sh p.1 p.2) shard

/-- The shard owning a key: the shard at `Store::shardIndex(key)`. -/
def Store.shardAt (s : Store) (key : String) : Shard :=
  s.shards.getD (s.shardIndex key) (Shard.empty 0)

/-! ### Association-list lemmas -/

theorem mapFind_eq_none (m : List (String × String)) (key : String) :
    mapFind m key = none ↔ key ∉ m.map Prod.fst := by
  induction m with
  | nil => simp [mapFind]
  | cons p rest ih =>
      obtain ⟨k, v⟩ := p
      by_cases h : k = key <;> simp [mapFind, h, ih, Ne.symm]

theorem mapFind_isSome (m : List (String × String)) (key : String) :
    (mapFind m key).isSome ↔ key ∈ m.map Prod.fst := by
  induction m with
  | nil => simp [mapFind]
  | cons p rest ih =>
      obtain ⟨k, v⟩ := p
      by_cases h : k = key <;> simp [mapFind, h, ih, Ne.symm]

theorem map_fst_mapSet (m : List (String × String)) (key value : String) :
    (mapSet m key value).map Prod.fst = m.map Prod.fst := by
  induction m with
  | nil => rfl
  | cons p rest ih =>
      obtain ⟨k, v⟩ := p
      by_cases h : k = key <;> simp [mapSet, h, ih]

theorem length_mapSet (m : List (String × String)) (key value : String) :
    (mapSet m key value).length = m.length := by
  induction m with
  | nil => rfl
  | cons p rest ih =>
      obtain ⟨k, v⟩ := p
      by_cases h : k = key <;> simp [mapSet, h, ih]

theorem mapFind_mapSet_self (m : List (String × String)) (key value : String)
    (h : (mapFind m key).isSome) :
    mapFind (mapSet m key value) key = some value := by
  induction m with
  | nil => simp [mapFind] at h
  | cons p rest ih =>
      obtain ⟨k, v⟩ := p
      by_cases hk : k = key
      · simp [mapSet, mapFind, hk]
      · simp only [mapFind, if_neg hk] at h
        simp [mapSet, mapFind, hk, ih h]

theorem mapFind_mapSet_ne (m : List (String × String)) (key value k' : String)
    (h : k' ≠ key) :
    mapFind (mapSet m key value) k' = mapFind m k' := by
  induction m with
  | nil => rfl
  | cons p rest ih =>
      obtain ⟨k, v⟩ := p
      by_cases hk : k = key
      · subst hk
        simp [mapSet, mapFind, Ne.symm h]
      · simp [mapSet, mapFind, hk, ih]

theorem map_fst_mapErase (m : List (String × String)) (key : String) :
    (mapErase m key).map Prod.fst = (m.map Prod.fst).erase key := by
  induction m with
  | nil => rfl
  | cons p rest ih =>
      obtain ⟨k, v⟩ := p
      by_cases h : k = key
      · subst h
        simp [mapErase]
      · simp only [mapErase, if_neg h, List.map_cons]
        rw [List.erase_cons_tail (by simp [h]), ih]

theorem mapFind_mapErase_ne (m : List (String × String)) (key k' : String)
    (h : k' ≠ key) :
    mapFind (mapErase m key) k' = mapFind m k' := by
  induction m with
  | nil => rfl
  | cons p rest ih =>
      obtain ⟨k, v⟩ := p
      by_cases hk : k = key
      · subst hk
        simp [mapErase, mapFind, Ne.symm h]
      · simp [mapErase, mapFind, hk, ih]

theorem mapFind_mapErase_self (m : List (String × String)) (key : String)
    (hnd : (m.map Prod.fst).Nodup) :
    mapFind (mapErase m key) key = none := by
  rw [mapFind_eq_none, map_fst_mapErase]
  intro hmem
  exact ((hnd.mem_erase_iff.mp hmem).1) rfl

theorem mapFind_eq_some_of_mem (m : List (String × String)) (k v : String)
    (hnd : (m.map Prod.fst).Nodup) (hmem : (k, v) ∈ m) :
    mapFind m k = some v := by
  induction m with
  | nil => simp at hmem
  | cons p rest ih =>
      obtain ⟨k', v'⟩ := p
      simp only [List.map_cons, List.nodup_cons] at hnd
      rcases List.mem_cons.mp hmem with h | h
      · obtain ⟨rfl, rfl⟩ := Prod.mk.injEq .. ▸ h
        simp [mapFind]
      · have hne : k' ≠ k := by
          intro hk
          exact hnd.1 (hk ▸ (List.mem_map.mpr ⟨(k, v), h, rfl⟩))
        simp [mapFind, hne, ih hnd.2 h]

theorem mapErase_append_of_not_mem (l₁ l₂ : List (String × String)) (key : String)
    (h : key ∉ l₁.map Prod.fst) :
    mapErase (l₁ ++ l₂) key = l₁ ++ mapErase l₂ key := by
  induction l₁ with
  | nil => rfl
  | cons p rest ih =>
      obtain ⟨k, v⟩ := p
      simp only [List.map_cons, List.mem_cons, not_or] at h
      simp [mapErase, Ne.symm h.1, ih h.2]

/-- Erasing the last element of a duplicate-free list is `dropLast`. -/
theorem erase_getLast_of_nodup (l : List String) (a : String)
    (hnd : l.Nodup) (hlast : l.getLast? = some a) :
    l.erase a = l.dropLast := by
  have hne : l ≠ [] := by
    intro h
    subst h
    simp at hlast
  have hdecomp : l.dropLast ++ [l.getLast hne] = l := List.dropLast_append_getLast hne
  have ha : l.getLast hne = a := by
    have := List.getLast?_eq_getLast l hne
    rw [hlast] at this
    exact (Option.some.injEq .. ▸ this.symm)
  rw [ha] at hdecomp
  have hnotmem : a ∉ l.dropLast := by
    intro hmem
    have := hdecomp ▸ hnd
    rcases List.nodup_append.mp this with ⟨_, _, hdisj⟩
    exact hdisj hmem (by simp)
  calc l.erase a = (l.dropLast ++ [a]).erase a := by rw [hdecomp]
    _ = l.dropLast ++ ([a].erase a) := List.erase_append_right _ hnotmem
    _ = l.dropLast := by simp

/-! ### Invariant preservation -/

@[simp] theorem capacity_putInShard (sh : Shard) (key value : String) :
    (putInShard sh key value).capacity = sh.capacity := by
  unfold putInShard
  cases mapFind sh.store key <;> simp only
  split <;> [skip; rfl]
  cases sh.recencyList.getLast? <;> rfl

@[simp] theorem capacity_getFromShard (sh : Shard) (key value : String) :
    ((getFromShard sh key value).1).capacity = sh.capacity := by
  unfold getFromShard
  cases mapFind sh.store key <;> rfl

@[simp] theorem capacity_delFromShard (sh : Shard) (key : String) :
    ((delFromShard sh key).1).capacity = sh.capacity := by
  unfold delFromShard
  cases mapFind sh.store key <;> rfl

theorem recency_ne_nil_of_full (sh : Shard) (hwf : ShardWF sh)
    (hcap : 1 ≤ sh.capacity) (hfull : sh.capacity ≤ sh.store.length) :
    sh.recencyList ≠ [] := by
  intro hnil
  have hlen : sh.store.length = sh.recencyList.length := by
    have := hwf.1.length_eq
    simpa using this
  rw [hnil, List.length_nil] at hlen
  omega

theorem putInShard_WF (sh : Shard) (key value : String) (hwf : ShardWF sh) :
    ShardWF (putInShard sh key value) := by
  obtain ⟨hperm, hnd⟩ := hwf
  unfold putInShard
  cases hfind : mapFind sh.store key with
  | some w =>
      have hmem : key ∈ sh.recencyList :=
        hperm.mem_iff.mp ((mapFind_isSome sh.store key).mp (by simp [hfind]))
      refine ⟨?_, ?_⟩
      · simp only [map_fst_mapSet]
        exact hperm.trans (List.perm_cons_erase hmem)
      · simp only [List.nodup_cons]
        exact ⟨fun hk => (hnd.mem_erase_iff.mp hk).1 rfl, hnd.erase key⟩
  | none =>
      have hkey : key ∉ sh.recencyList := fun hmem =>
        (mapFind_eq_none sh.store key).mp hfind (hperm.mem_iff.mpr hmem)
      simp only
      split
      · cases hlast : sh.recencyList.getLast? with
        | some lru =>
            have hlru_mem : lru ∈ sh.recencyList := by
              obtain ⟨h1, h2⟩ := List.mem_getLast?_eq_getLast (Option.mem_def.mpr hlast)
              exact h2 ▸ List.getLast_mem h1
            have herase : sh.recencyList.erase lru = sh.recencyList.dropLast :=
              erase_getLast_of_nodup sh.recencyList lru hnd hlast
            refine ⟨?_, ?_⟩
            · simp only [List.map_cons, map_fst_mapErase]
              exact (herase ▸ (hperm.erase lru)).cons key
            · simp only [List.nodup_cons]
              refine ⟨fun hk => hkey (List.dropLast_sublist _ |>.mem hk), ?_⟩
              exact hnd.sublist (List.dropLast_sublist _)
        | none =>
            refine ⟨(hperm.cons key), List.nodup_cons.mpr ⟨hkey, hnd⟩⟩
      · exact ⟨hperm.cons key, List.nodup_cons.mpr ⟨hkey, hnd⟩⟩

theorem getFromShard_WF (sh : Shard) (key value : String) (hwf : ShardWF sh) :
    ShardWF (getFromShard sh key value).1 := by
  obtain ⟨hperm, hnd⟩ := hwf
  unfold getFromShard
  cases hfind : mapFind sh.store key with
  | none => exact ⟨hperm, hnd⟩
  | some w =>
      have hmem : key ∈ sh.recencyList :=
        hperm.mem_iff.mp ((mapFind_isSome sh.store key).mp (by simp [hfind]))
      refine ⟨hperm.trans (List.perm_cons_erase hmem), ?_⟩
      simp only [List.nodup_cons]
      exact ⟨fun hk => (hnd.mem_erase_iff.mp hk).1 rfl, hnd.erase key⟩

theorem delFromShard_WF (sh : Shard) (key : String) (hwf : ShardWF sh) :
    ShardWF (delFromShard sh key).1 := by
  obtain ⟨hperm, hnd⟩ := hwf
  unfold delFromShard
  cases hfind : mapFind sh.store key with
  | none => exact ⟨hperm, hnd⟩
  | some w =>
      refine ⟨?_, hnd.erase key⟩
      simp only [map_fst_mapErase]
      exact hperm.erase key

theorem clearShard_WF (sh : Shard) : ShardWF (clearShard sh) := by
  constructor <;> simp [clearShard]

theorem applyOp_WF (sh : Shard) (op : ShardOp) (hwf : ShardWF sh) :
    ShardWF (applyOp sh op) := by
  cases op with
  | putOp k v => exact putInShard_WF sh k v hwf
  | getOp k v => exact getFromShard_WF sh k v hwf
  | delOp k => exact delFromShard_WF sh k hwf
  | clearOp => exact clearShard_WF sh

theorem runOps_WF (ops : List ShardOp) (sh : Shard) (hwf : ShardWF sh) :
    ShardWF (runOps sh ops) := by
  induction ops generalizing sh with
  | nil => exact hwf
  | cons op rest ih => exact ih _ (applyOp_WF sh op hwf)

theorem emptyShard_WF (C : Nat) : ShardWF (Shard.empty C) := by
  constructor <;> simp [Shard.empty]

theorem length_mapErase_of_mem (m : List (String × String)) (key : String)
    (h : key ∈ m.map Prod.fst) :
    (mapErase m key).length = m.length - 1 := by
  have h1 : ((mapErase m key).map Prod.fst).length = ((m.map Prod.fst).erase key).length :=
    congrArg List.length (map_fst_mapErase m key)
  rw [List.length_map, List.length_erase_of_mem h, List.length_map] at h1
  exact h1

theorem putInShard_length_le (sh : Shard) (key value : String)
    (hwf : ShardWF sh) (hcap : 1 ≤ sh.capacity)
    (hle : sh.store.length ≤ sh.capacity) :
    (putInShard sh key value).store.length ≤ sh.capacity := by
  unfold putInShard
  cases hfind : mapFind sh.store key with
  | some w => simpa [length_mapSet] using hle
  | none =>
      simp only
      by_cases hfull : sh.capacity ≤ sh.store.length
      · rw [if_pos hfull]
        have hne := recency_ne_nil_of_full sh hwf hcap hfull
        obtain ⟨lru, hlast⟩ :=
          Option.isSome_iff_exists.mp (List.getLast?_isSome.mpr hne)
        rw [hlast]
        simp only [List.length_cons]
        have hlru_mem : lru ∈ sh.store.map Prod.fst := by
          obtain ⟨h1, h2⟩ := List.mem_getLast?_eq_getLast (Option.mem_def.mpr hlast)
          exact hwf.1.mem_iff.mpr (h2 ▸ List.getLast_mem h1)
        have hlen := length_mapErase_of_mem sh.store lru hlru_mem
        omega
      · rw [if_neg hfull]
        simp only [List.length_cons]
        omega

theorem insertAll_invariant (pairs : List (String × String)) (sh : Shard)
    (hwf : ShardWF sh) (hcap : 1 ≤ sh.capacity)
    (hle : sh.store.length ≤ sh.capacity) :
    ShardWF (insertAll sh pairs) ∧
      (insertAll sh pairs).capacity = sh.capacity ∧
      (insertAll sh pairs).store.length ≤ sh.capacity := by
  induction pairs generalizing sh with
  | nil => exact ⟨hwf, rfl, hle⟩
  | cons p rest ih =>
      have h1 := putInShard_WF sh p.1 p.2 hwf
      have h2 := putInShard_length_le sh p.1 p.2 hwf hcap hle
      have hc := capacity_putInShard sh p.1 p.2
      have hrec := ih (putInShard sh p.1 p.2) h1 (by rw [hc]; exact hcap)
        (by rw [hc]; exact h2)
      have hstep : insertAll sh (p :: rest) = insertAll (putInShard sh p.1 p.2) rest := by
        simp [insertAll]
      rw [hstep]
      exact ⟨hrec.1, by rw [hrec.2.1, hc], by rw [← hc]; exact hrec.2.2⟩

/-- C1: a shard with positive capacity `C`, starting empty, holds at most
`C` keys after any finite sequence of `putInShard` operations: the
eviction performed before inserting a new key into a full shard keeps the
map size bounded by the capacity at every step. -/
theorem putSeq_capacity_bound (C : Nat) (hC : 0 < C)
    (pairs : List (String × String)) :
    (insertAll (Shard.empty C) pairs).store.length ≤ C := by
  exact (insertAll_invariant pairs (Shard.empty C) (emptyShard_WF C) hC
    (by simp [Shard.empty])).2.2

theorem putSeq_capacity_bound_witness :
    0 < 2 ∧
      (insertAll (Shard.empty 2) [("A", "1"), ("B", "2"), ("C", "3"), ("D", "4")]).store.length ≤ 2 :=
  ⟨by decide,
   putSeq_capacity_bound 2 (by decide) [("A", "1"), ("B", "2"), ("C", "3"), ("D", "4")]⟩

/-! ### Small list helpers for the store level -/

theorem getD_set_self {α : Type} (l : List α) (i : Nat) (a d : α)
    (h : i < l.length) :
    (l.set i a).getD i d = a := by
  induction l generalizing i with
  | nil => simp at h
  | cons b rest ih =>
      cases i with
      | zero => rfl
      | succ n =>
          simp only [List.set_cons_succ, List.getD_cons_succ]
          exact ih n (by simpa using h)

theorem getD_set_ne {α : Type} (l : List α) (i j : Nat) (a d : α)
    (h : i ≠ j) :
    (l.set i a).getD j d = l.getD j d := by
  rw [List.getD_eq_getD_get?, List.getD_eq_getD_get?]
  simp only [List.get?_eq_getElem?]
  rw [List.getElem?_set_ne h]

theorem set_getD_self {α : Type} (l : List α) (i : Nat) (d : α) :
    l.set i (l.getD i d) = l := by
  induction l generalizing i with
  | nil => rfl
  | cons a rest ih =>
      cases i with
      | zero => rfl
      | succ n =>
          have h := ih n
          simp only [List.getD_cons_succ, List.set_cons_succ, h]

/-! ### C3: index/recency consistency -/

/-- C3: every shard operation preserves the consistency invariant: after
any finite sequence of `putInShard` / `getFromShard` / `delFromShard` /
`clearShard` operations starting from an empty shard, the map and the
recency list have the same size and contain exactly the same keys. -/
theorem ops_preserve_consistency (C : Nat) (ops : List ShardOp) :
    (runOps (Shard.empty C) ops).store.length
        = (runOps (Shard.empty C) ops).recencyList.length ∧
      ∀ k, (mapFind (runOps (Shard.empty C) ops).store k).isSome ↔
        k ∈ (runOps (Shard.empty C) ops).recencyList := by
  have hwf := runOps_WF ops (Shard.empty C) (emptyShard_WF C)
  refine ⟨?_, fun k => ?_⟩
  · simpa using hwf.1.length_eq
  · rw [mapFind_isSome]
    exact hwf.1.mem_iff

/-! ### C9: the eviction branch is well defined -/

/-- C9: under the preconditions capacity at least one and
`|index| = |recency|`, whenever `putInShard` takes its eviction branch
(the key is new and the shard is full) the recency list is non-empty, so
`recencyList.back()` is well defined and the eviction removes it: the
empty-list access is unreachable. -/
theorem eviction_branch_well_defined (sh : Shard) (key value : String)
    (hcap : 1 ≤ sh.capacity)
    (hlen : sh.store.length = sh.recencyList.length)
    (hmiss : mapFind sh.store key = none)
    (hfull : sh.capacity ≤ sh.store.length) :
    ∃ lru_key, sh.recencyList.getLast? = some lru_key ∧
      putInShard sh key value =
        { store := (key, value) :: mapErase sh.store lru_key
          recencyList := key :: sh.recencyList.dropLast
          capacity := sh.capacity } := by
  have hne : sh.recencyList ≠ [] := by
    intro h
    rw [h, List.length_nil] at hlen
    omega
  obtain ⟨lru, hlast⟩ := Option.isSome_iff_exists.mp (List.getLast?_isSome.mpr hne)
  refine ⟨lru, hlast, ?_⟩
  unfold putInShard
  rw [hmiss]
  simp only [if_pos hfull, hlast]

theorem eviction_branch_well_defined_witness :
    (1 ≤ (1 : Nat) ∧
        ([(("A" : String), ("1" : String))].length = ["A"].length) ∧
        mapFind [("A", "1")] "B" = none ∧
        (1 : Nat) ≤ [("A", "1")].length) ∧
      ∃ lru_key,
        (Shard.mk [("A", "1")] ["A"] 1).recencyList.getLast? = some lru_key ∧
          putInShard (Shard.mk [("A", "1")] ["A"] 1) "B" "2" =
            { store := ("B", "2") :: mapErase [("A", "1")] lru_key
              recencyList := "B" :: (["A"] : List String).dropLast
              capacity := 1 } :=
  ⟨⟨by decide, by decide, by decide, by decide⟩,
   eviction_branch_well_defined (Shard.mk [("A", "1")] ["A"] 1) "B" "2"
     (by decide) (by decide) (by decide) (by decide)⟩

/-! ### C10: the out-parameter is untouched on a miss -/

/-- C10: whenever `getFromShard` reports not-found, the in/out `value`
parameter comes back exactly as it was passed in: it is assigned only on
the found path. -/
theorem get_miss_out_param_untouched (sh : Shard) (key value : String)
    (hnotfound : (getFromShard sh key value).2.2 = false) :
    (getFromShard sh key value).2.1 = value := by
  cases hfind : mapFind sh.store key with
  | none =>
      unfold getFromShard
      rw [hfind]
  | some w =>
      unfold getFromShard at hnotfound
      rw [hfind] at hnotfound
      simp at hnotfound

theorem get_miss_out_param_untouched_witness :
    (getFromShard (Shard.empty 2) "A" "previous").2.2 = false ∧
      (getFromShard (Shard.empty 2) "A" "previous").2.1 = "previous" :=
  ⟨by decide,
   get_miss_out_param_untouched (Shard.empty 2) "A" "previous" (by decide)⟩

/-! ### C7: a missed get mutates nothing -/

/-- C7: `get` on an absent key reports not-found and leaves the whole
store (every shard's map and recency list) and the out-parameter exactly
as they were. -/
theorem get_miss_no_mutation (s : Store) (key value : String)
    (hmiss : mapFind (s.shardAt key).store key = none) :
    s.get key value = (s, value, false) := by
  unfold Store.shardAt at hmiss
  simp only [Store.get, getFromShard, hmiss, set_getD_self]

theorem get_miss_no_mutation_witness :
    mapFind ((Store.create (fun _ => 0) 2 1).shardAt "A").store "A" = none ∧
      (Store.create (fun _ => 0) 2 1).get "A" "old" =
        (Store.create (fun _ => 0) 2 1, "old", false) :=
  ⟨by decide, get_miss_no_mutation (Store.create (fun _ => 0) 2 1) "A" "old" (by decide)⟩

/-! ### C6: delete semantics -/

theorem shardIndex_lt_of_find_some (s : Store) (key w : String)
    (h : mapFind (s.shardAt key).store key = some w) :
    s.shardIndex key < s.shards.length := by
  by_cases hl : s.shardIndex key < s.shards.length
  · exact hl
  · exfalso
    rw [Store.shardAt, List.getD_eq_default] at h
    · simp [Shard.empty, mapFind] at h
    · omega

/-- C6: `del` returns true exactly when the key is present in its shard;
on a miss the store is returned unchanged; on a hit the key is removed
from both the map and the recency list of its shard. -/
theorem del_iff_present (s : Store) (key : String)
    (hwf : ShardWF (s.shardAt key)) :
    ((s.del key).2 = true ↔ (mapFind (s.shardAt key).store key).isSome) ∧
      (mapFind (s.shardAt key).store key = none → (s.del key).1 = s) ∧
      ((mapFind (s.shardAt key).store key).isSome →
        mapFind (((s.del key).1.shardAt key).store) key = none ∧
          key ∉ ((s.del key).1.shardAt key).recencyList) := by
  cases hfind : mapFind (s.shardAt key).store key with
  | none =>
      have hdel : s.del key = (s, false) := by
        unfold Store.shardAt at hfind
        simp only [Store.del, delFromShard, hfind, set_getD_self]
      refine ⟨?_, fun _ => ?_, fun hsome => ?_⟩
      · rw [hdel]
        simp
      · rw [hdel]
      · simp at hsome
  | some w =>
      have hlt := shardIndex_lt_of_find_some s key w hfind
      have hdel : s.del key =
          (Store.mk s.hashFn (s.shards.set (s.shardIndex key)
              (Shard.mk (mapErase (s.shardAt key).store key)
                ((s.shardAt key).recencyList.erase key)
                ((s.shardAt key).capacity))), true) := by
        unfold Store.shardAt at hfind ⊢
        simp only [Store.del, delFromShard, hfind]
      have hat : (s.del key).1.shardAt key =
          Shard.mk (mapErase (s.shardAt key).store key)
            ((s.shardAt key).recencyList.erase key)
            ((s.shardAt key).capacity) := by
        rw [hdel]
        unfold Store.shardAt Store.shardIndex
        simp only [List.length_set]
        exact getD_set_self _ _ _ _ hlt
      have hnodup_keys : ((s.shardAt key).store.map Prod.fst).Nodup :=
        hwf.1.nodup_iff.mpr hwf.2
      refine ⟨?_, fun habs => ?_, fun _ => ?_⟩
      · rw [hdel]
        simp
      · simp at habs
      · rw [hat]
        refine ⟨mapFind_mapErase_self _ _ hnodup_keys, fun hmem => ?_⟩
        exact (hwf.2.mem_erase_iff.mp hmem).1 rfl

theorem del_iff_present_witness :
    ShardWF ((Store.create (fun _ => 0) 2 1).shardAt "A") ∧
      ((((Store.create (fun _ => 0) 2 1).del "A").2 = true ↔
          (mapFind ((Store.create (fun _ => 0) 2 1).shardAt "A").store "A").isSome) ∧
        (mapFind ((Store.create (fun _ => 0) 2 1).shardAt "A").store "A" = none →
          ((Store.create (fun _ => 0) 2 1).del "A").1 = Store.create (fun _ => 0) 2 1) ∧
        ((mapFind ((Store.create (fun _ => 0) 2 1).shardAt "A").store "A").isSome →
          mapFind ((((Store.create (fun _ => 0) 2 1).del "A").1.shardAt "A").store) "A"
              = none ∧
            "A" ∉ (((Store.create (fun _ => 0) 2 1).del "A").1.shardAt "A").recencyList)) :=
  ⟨⟨by decide, by decide⟩,
   del_iff_present (Store.create (fun _ => 0) 2 1) "A" ⟨by decide, by decide⟩⟩

/-! ### C8: routing is pure and in range -/

/-- C8: the shard-routing function is a pure function of the key and the
shard count, so repeated calls agree, and for a positive shard count the
result always lies in `[0, shardCount)`. -/
theorem shardIndex_deterministic_in_range (s : Store) (key : String)
    (hpos : 0 < s.shards.length) :
    s.shardIndex key = s.shardIndex key ∧
      s.shardIndex key < s.shards.length :=
  ⟨rfl, Nat.mod_lt _ hpos⟩

theorem shardIndex_deterministic_in_range_witness :
    0 < (Store.create (fun st => st.length) 2 16).shards.length ∧
      ((Store.create (fun st => st.length) 2 16).shardIndex "hello" =
          (Store.create (fun st => st.length) 2 16).shardIndex "hello" ∧
        (Store.create (fun st => st.length) 2 16).shardIndex "hello" <
          (Store.create (fun st => st.length) 2 16).shards.length) :=
  ⟨by decide,
   shardIndex_deterministic_in_range (Store.create (fun st => st.length) 2 16)
     "hello" (by decide)⟩

/-! ### C4: overwrite semantics -/

/-- C4: re-putting an existing key overwrites its value, moves it to the
most-recently-used end of the recency list, never evicts, and leaves the
shard size unchanged; concretely, with capacity 2 the sequence
put A=1, put B=2, re-put A=10, put C=3 evicts B and keeps A=10 and C=3. -/
theorem overwrite_refreshes_without_evicting (sh : Shard) (key value w : String)
    (hfound : mapFind sh.store key = some w) :
    ((putInShard sh key value).store.length = sh.store.length ∧
      mapFind (putInShard sh key value).store key = some value ∧
      (∀ k', k' ≠ key →
        mapFind (putInShard sh key value).store k' = mapFind sh.store k') ∧
      (putInShard sh key value).recencyList = key :: sh.recencyList.erase key) ∧
      (mapFind (putInShard (putInShard (putInShard (putInShard (Shard.empty 2)
          "A" "1") "B" "2") "A" "10") "C" "3").store "B" = none ∧
        mapFind (putInShard (putInShard (putInShard (putInShard (Shard.empty 2)
          "A" "1") "B" "2") "A" "10") "C" "3").store "A" = some "10" ∧
        mapFind (putInShard (putInShard (putInShard (putInShard (Shard.empty 2)
          "A" "1") "B" "2") "A" "10") "C" "3").store "C" = some "3") := by
  have hstep : putInShard sh key value =
      { sh with store := mapSet sh.store key value
                recencyList := key :: sh.recencyList.erase key } := by
    unfold putInShard
    rw [hfound]
  refine ⟨⟨?_, ?_, fun k' hk' => ?_, ?_⟩, by decide, by decide, by decide⟩
  · rw [hstep]
    exact length_mapSet sh.store key value
  · rw [hstep]
    exact mapFind_mapSet_self sh.store key value (by simp [hfound])
  · rw [hstep]
    exact mapFind_mapSet_ne sh.store key value k' hk'
  · rw [hstep]

theorem overwrite_refreshes_without_evicting_witness :
    mapFind (putInShard (Shard.empty 2) "A" "1").store "A" = some "1" ∧
      ((putInShard (putInShard (Shard.empty 2) "A" "1") "A" "10").store.length
          = (putInShard (Shard.empty 2) "A" "1").store.length ∧
        mapFind (putInShard (putInShard (Shard.empty 2) "A" "1") "A" "10").store "A"
          = some "10" ∧
        (∀ k', k' ≠ "A" →
          mapFind (putInShard (putInShard (Shard.empty 2) "A" "1") "A" "10").store k'
            = mapFind (putInShard (Shard.empty 2) "A" "1").store k') ∧
        (putInShard (putInShard (Shard.empty 2) "A" "1") "A" "10").recencyList
          = "A" :: (putInShard (Shard.empty 2) "A" "1").recencyList.erase "A") :=
  ⟨by decide,
   ((overwrite_refreshes_without_evicting (putInShard (Shard.empty 2) "A" "1")
     "A" "10" "1" (by decide)).1 : _)⟩

/-! ### C2: LRU eviction order -/

theorem insertAll_append (sh : Shard) (l₁ l₂ : List (String × String)) :
    insertAll sh (l₁ ++ l₂) = insertAll (insertAll sh l₁) l₂ := by
  simp [insertAll, List.foldl_append]

/-- Filling a shard with fresh keys within capacity: no eviction happens,
the new entries pile up in front of the map and the recency list in
reverse insertion order. -/
theorem insertAll_fresh (pairs : List (String × String)) (sh : Shard)
    (habs : ∀ p ∈ pairs, mapFind sh.store p.1 = none)
    (hnd : (pairs.map Prod.fst).Nodup)
    (hle : sh.store.length + pairs.length ≤ sh.capacity) :
    insertAll sh pairs =
      Shard.mk (pairs.reverse ++ sh.store)
        ((pairs.map Prod.fst).reverse ++ sh.recencyList) sh.capacity := by
  induction pairs generalizing sh with
  | nil =>
      cases sh
      simp [insertAll]
  | cons p rest ih =>
      obtain ⟨k, v⟩ := p
      have hk : mapFind sh.store k = none := habs (k, v) (List.mem_cons_self _ _)
      have hnotfull : ¬ sh.capacity ≤ sh.store.length := by
        simp only [List.length_cons] at hle
        omega
      have hstep : putInShard sh k v =
          Shard.mk ((k, v) :: sh.store) (k :: sh.recencyList) sh.capacity := by
        unfold putInShard
        rw [hk]
        simp only [if_neg hnotfull]
      have hrest_abs : ∀ p ∈ rest, mapFind ((k, v) :: sh.store) p.1 = none := by
        intro p hp
        have hne : k ≠ p.1 := by
          simp only [List.map_cons, List.nodup_cons] at hnd
          exact fun he => hnd.1 (he ▸ List.mem_map.mpr ⟨p, hp, rfl⟩)
        simp only [mapFind, if_neg hne]
        exact habs p (List.mem_cons_of_mem _ hp)
      have hnd' : (rest.map Prod.fst).Nodup := by
        simp only [List.map_cons, List.nodup_cons] at hnd
        exact hnd.2
      have hle' : ((k, v) :: sh.store).length + rest.length ≤ sh.capacity := by
        simp only [List.length_cons] at hle ⊢
        omega
      have hrec := ih (Shard.mk ((k, v) :: sh.store) (k :: sh.recencyList) sh.capacity)
        hrest_abs hnd' hle'
      have hchain : insertAll sh ((k, v) :: rest)
          = insertAll (Shard.mk ((k, v) :: sh.store) (k :: sh.recencyList) sh.capacity) rest := by
        rw [← hstep]
        simp [insertAll]
      rw [hchain, hrec]
      simp [List.reverse_cons, List.append_assoc]

/-- C2: LRU eviction removes the least-recently-touched key.  Inserting
`C + 1` distinct keys into an empty shard of capacity `C` evicts exactly
the first-inserted key and keeps every later pair; and in the capacity-2
read-refresh scenario (put A, put B, get A, put C) the evicted key is B
while A and C remain, because a hit moves the key to the
most-recently-used end of the recency list. -/
theorem lru_evicts_least_recent (C : Nat) (hC : 1 ≤ C)
    (pairs : List (String × String)) (first : String × String)
    (hlen : pairs.length = C + 1)
    (hnd : (pairs.map Prod.fst).Nodup)
    (hfirst : pairs.head? = some first) :
    (mapFind (insertAll (Shard.empty C) pairs).store first.1 = none ∧
      ∀ p ∈ pairs.tail,
        mapFind (insertAll (Shard.empty C) pairs).store p.1 = some p.2) ∧
      (mapFind (putInShard ((getFromShard (insertAll (Shard.empty 2)
            [("A", "1"), ("B", "2")]) "A" "").1) "C" "3").store "A" = some "1" ∧
        mapFind (putInShard ((getFromShard (insertAll (Shard.empty 2)
            [("A", "1"), ("B", "2")]) "A" "").1) "C" "3").store "B" = none ∧
        mapFind (putInShard ((getFromShard (insertAll (Shard.empty 2)
            [("A", "1"), ("B", "2")]) "A" "").1) "C" "3").store "C" = some "3") := by
  refine ⟨?_, by decide, by decide, by decide⟩
  have hne : pairs ≠ [] := by
    intro h
    rw [h] at hlen
    simp at hlen
  rcases List.eq_nil_or_concat pairs with h | ⟨q, b, hqb⟩
  · exact absurd h hne
  rw [List.concat_eq_append] at hqb
  subst hqb
  have hqlen : q.length = C := by
    simpa using hlen
  have hqne : q ≠ [] := by
    intro h
    rw [h] at hqlen
    simp at hqlen
    omega
  obtain ⟨f, q', hq⟩ := List.exists_cons_of_ne_nil hqne
  subst hq
  have hf : first = f := by
    simp at hfirst
    exact hfirst.symm
  subst hf
  have hqlen' : q'.length + 1 = C := by
    simpa using hqlen
  -- split the nodup hypothesis
  rw [List.map_append, List.nodup_append] at hnd
  have hq_nd : ((first :: q').map Prod.fst).Nodup := hnd.1
  have hb_not : b.1 ∉ (first :: q').map Prod.fst := by
    intro hmem
    exact hnd.2.2 hmem (by simp)
  have hf_not_q' : first.1 ∉ q'.map Prod.fst := by
    simp only [List.map_cons, List.nodup_cons] at hq_nd
    exact hq_nd.1
  have hq'_nd : (q'.map Prod.fst).Nodup := by
    simp only [List.map_cons, List.nodup_cons] at hq_nd
    exact hq_nd.2
  -- fill the shard with the first C pairs
  have hfill : insertAll (Shard.empty C) (first :: q') =
      Shard.mk ((first :: q').reverse) (((first :: q').map Prod.fst).reverse) C := by
    have := insertAll_fresh (first :: q') (Shard.empty C)
      (fun p _ => rfl) hq_nd (by simp [Shard.empty]; omega)
    simpa [Shard.empty] using this
  rw [insertAll_append, hfill]
  -- the final put takes the eviction branch and evicts the head key
  have hmiss : mapFind ((first :: q').reverse) b.1 = none := by
    rw [mapFind_eq_none, List.map_reverse, List.mem_reverse]
    exact hb_not
  have hfull : C ≤ ((first :: q').reverse).length := by
    simp only [List.length_reverse, List.length_cons]
    omega
  have hlast : (((first :: q').map Prod.fst).reverse).getLast? = some first.1 := by
    simp only [List.map_cons, List.reverse_cons]
    exact List.getLast?_concat _
  have hput : insertAll (Shard.mk ((first :: q').reverse)
        (((first :: q').map Prod.fst).reverse) C) [b] =
      Shard.mk ((b.1, b.2) :: mapErase ((first :: q').reverse) first.1)
        (b.1 :: (((first :: q').map Prod.fst).reverse).dropLast) C := by
    show putInShard _ b.1 b.2 = _
    unfold putInShard
    rw [hmiss]
    simp only [if_pos hfull, hlast]
  rw [hput]
  have herase : mapErase ((first :: q').reverse) first.1 = q'.reverse := by
    rw [List.reverse_cons, mapErase_append_of_not_mem]
    · simp [mapErase]
    · rw [List.map_reverse, List.mem_reverse]
      exact hf_not_q'
  have hdrop : (((first :: q').map Prod.fst).reverse).dropLast
      = (q'.map Prod.fst).reverse := by
    simp only [List.map_cons, List.reverse_cons]
    exact List.dropLast_concat
  rw [herase, hdrop]
  constructor
  · rw [mapFind_eq_none]
    simp only [List.map_cons, List.map_reverse, List.mem_cons, List.mem_reverse]
    rintro (h | h)
    · exact hb_not (by rw [← h]; simp)
    · exact hf_not_q' h
  · intro p hp
    have htail : p ∈ q' ++ [b] := by
      simpa using hp
    have hkeys_nd : (((b.1, b.2) :: q'.reverse).map Prod.fst).Nodup := by
      simp only [List.map_cons, List.nodup_cons, List.map_reverse,
        List.nodup_reverse, List.mem_reverse]
      refine ⟨fun hmem => hb_not (List.mem_cons_of_mem _ hmem), hq'_nd⟩
    rcases List.mem_append.mp htail with h | h
    · exact mapFind_eq_some_of_mem _ p.1 p.2 hkeys_nd
        (List.mem_cons_of_mem _ (List.mem_reverse.mpr h))
    · have hb : p = b := by
        simpa using h
      subst hb
      simp [mapFind]

theorem lru_evicts_least_recent_witness :
    (1 ≤ 2 ∧
        ([(("A" : String), ("1" : String)), ("B", "2"), ("C", "3")]).length = 2 + 1 ∧
        (([(("A" : String), ("1" : String)), ("B", "2"), ("C", "3")]).map Prod.fst).Nodup ∧
        ([(("A" : String), ("1" : String)), ("B", "2"), ("C", "3")]).head?
          = some ("A", "1")) ∧
      (mapFind (insertAll (Shard.empty 2)
            [("A", "1"), ("B", "2"), ("C", "3")]).store ("A", "1").1 = none ∧
        ∀ p ∈ ([(("A" : String), ("1" : String)), ("B", "2"), ("C", "3")]).tail,
          mapFind (insertAll (Shard.empty 2)
            [("A", "1"), ("B", "2"), ("C", "3")]).store p.1 = some p.2) :=
  ⟨⟨by decide, by decide, by decide, by decide⟩,
   (lru_evicts_least_recent 2 (by decide) [("A", "1"), ("B", "2"), ("C", "3")]
     ("A", "1") (by decide) (by decide) (by decide)).1⟩

/-! ### C5: batch equivalence -/

theorem put_hashFn (s : Store) (key value : String) :
    (s.put key value).hashFn = s.hashFn := rfl

theorem put_numShards (s : Store) (key value : String) :
    (s.put key value).shards.length = s.shards.length := by
  simp [Store.put]

theorem put_shardIndex (s : Store) (key value k' : String) :
    (s.put key value).shardIndex k' = s.shardIndex k' := by
  unfold Store.shardIndex
  rw [put_hashFn, put_numShards]

theorem putList_cons (s : Store) (p : String × String)
    (rest : List (String × String)) :
    putList s (p :: rest) = putList (s.put p.1 p.2) rest := rfl

theorem putList_numShards (pairs : List (String × String)) (s : Store) :
    (putList s pairs).shards.length = s.shards.length := by
  induction pairs generalizing s with
  | nil => rfl
  | cons p rest ih => rw [putList_cons, ih, put_numShards]

theorem putList_hashFn (pairs : List (String × String)) (s : Store) :
    (putList s pairs).hashFn = s.hashFn := by
  induction pairs generalizing s with
  | nil => rfl
  | cons p rest ih => rw [putList_cons, ih, put_hashFn]

theorem put_shards_getD (s : Store) (key value : String) (i : Nat)
    (hi : i < s.shards.length) :
    (s.put key value).shards.getD i (Shard.empty 0) =
      if s.shardIndex key = i then
        putInShard (s.shards.getD i (Shard.empty 0)) key value
      else s.shards.getD i (Shard.empty 0) := by
  unfold Store.put
  simp only
  by_cases h : s.shardIndex key = i
  · subst h
    rw [if_pos rfl]
    exact getD_set_self _ _ _ _ hi
  · rw [if_neg h]
    exact getD_set_ne _ _ _ _ _ h

theorem list_eq_of_getD {α : Type} (d : α) :
    ∀ (l₁ l₂ : List α), l₁.length = l₂.length →
      (∀ i, i < l₁.length → l₁.getD i d = l₂.getD i d) → l₁ = l₂
  | [], [], _, _ => rfl
  | [], _ :: _, h, _ => by simp at h
  | _ :: _, [], h, _ => by simp at h
  | a :: t₁, b :: t₂, h, hg => by
      have h0 := hg 0 (by simp)
      simp only [List.getD_cons_zero] at h0
      have ht : t₁ = t₂ := by
        refine list_eq_of_getD d t₁ t₂ (by simpa using h) (fun i hi => ?_)
        have := hg (i + 1) (by simpa using Nat.succ_lt_succ hi)
        simpa only [List.getD_cons_succ] using this
      rw [h0, ht]

theorem getD_map_range {α : Type} (f : Nat → α) (n i : Nat) (d : α)
    (h : i < n) :
    ((List.range n).map f).getD i d = f i := by
  have hlen : i < ((List.range n).map f).length := by simpa using h
  rw [List.getD_eq_getElem _ _ hlen]
  simp

theorem store_eq_of_fields (a b : Store) (h1 : a.hashFn = b.hashFn)
    (h2 : a.shards = b.shards) : a = b := by
  cases a
  cases b
  simp only [Store.mk.injEq]
  exact ⟨h1, h2⟩

/-- For every shard index, applying the pairs one at a time through the
routed single-key `put` leaves that shard holding exactly the fold of its
own (order-preserving) sub-batch. -/
theorem putList_shards_getD (pairs : List (String × String)) (s : Store)
    (i : Nat) (hi : i < s.shards.length) :
    (putList s pairs).shards.getD i (Shard.empty 0) =
      (pairs.filter fun p => s.shardIndex p.1 == i).foldl
        (fun sh p => putInShard sh p.1 p.2) (s.shards.getD i (Shard.empty 0)) := by
  induction pairs generalizing s with
  | nil => rfl
  | cons p rest ih =>
      rw [putList_cons]
      have hi' : i < (s.put p.1 p.2).shards.length := by
        rw [put_numShards]
        exact hi
      rw [ih (s.put p.1 p.2) hi']
      have hfe : (rest.filter fun q => (s.put p.1 p.2).shardIndex q.1 == i)
          = (rest.filter fun q => s.shardIndex q.1 == i) := by
        simp only [put_shardIndex]
      rw [hfe, put_shards_getD s p.1 p.2 i hi]
      by_cases h : s.shardIndex p.1 = i
      · rw [if_pos h, List.filter_cons]
        have hb : (s.shardIndex p.1 == i) = true := by
          simp [h]
        rw [hb]
        simp only [if_pos trivial, List.foldl_cons]
      · rw [if_neg h, List.filter_cons]
        have hb : (s.shardIndex p.1 == i) = false := by
          simp [h]
        rw [hb]
        simp only [Bool.false_eq_true, if_false]

/-- C5: for pairwise-distinct keys, the batched `putMany` path produces
exactly the same final store (same hash function, and for every shard the
same map contents and recency order) as applying the pairs one at a time
through single-key `put` in the same order. -/
theorem putMany_eq_sequential_put (s : Store) (pairs : List (String × String))
    (_hnd : (pairs.map Prod.fst).Nodup) :
    Store.putMany s pairs = putList s pairs := by
  apply store_eq_of_fields
  · rw [putList_hashFn]
    rfl
  · have hlen1 : (Store.putMany s pairs).shards.length = s.shards.length := by
      simp [Store.putMany]
    have hlen2 : (putList s pairs).shards.length = s.shards.length :=
      putList_numShards pairs s
    refine list_eq_of_getD (Shard.empty 0) _ _ (by rw [hlen1, hlen2])
      (fun i hi => ?_)
    rw [hlen1] at hi
    rw [putList_shards_getD pairs s i hi]
    show ((List.range s.shards.length).map _).getD i (Shard.empty 0) = _
    rw [getD_map_range _ _ _ _ hi]

theorem putMany_eq_sequential_put_witness :
    (([(("A" : String), ("1" : String)), ("B", "2")]).map Prod.fst).Nodup ∧
      Store.putMany (Store.create (fun st => st.length) 1 2)
          [("A", "1"), ("B", "2")] =
        putList (Store.create (fun st => st.length) 1 2) [("A", "1"), ("B", "2")] :=
  ⟨by decide,
   putMany_eq_sequential_put (Store.create (fun st => st.length) 1 2)
     [("A", "1"), ("B", "2")] (by decide)⟩
